import Mathlib

/-!
A shallow embedding of the graph-construction core of `ytnetworkvis`
(`main.py`): the `Channel` and `Person` data model, channel
deduplication against a shared registry (`Person.generateChannels`),
CSV loading (`load_users_from_csv`), and graph construction
(`build_network_graph`).

Python heap objects are modelled by value: a `Channel` object is
identified by its registry entry, a reference to a `Channel` held in a
`Person.channels` list is represented by the channel's `id` string, and
a reference to a `Person` held in a `Channel.owners` list is
represented by the person's `name` string.  The registry
(`channellist`) keeps one entry per id (proved below), so id-equality
coincides with Python object identity for registry-resident channels.
Mutation is modelled by explicit state passing.
-/

namespace YtNet

/-- One input record: a row of a per-user CSV with the columns written by
`get_subscriptions_data` (`channel_id`, `channel_title`, `subscribers`,
`thumbnail`, `category`).  The `subscribers` field is kept raw: it may be a
non-numeric sentinel such as `"Hidden"`. -/
structure Row where
  channel_id : String
  channel_title : String
  subscribers : String
  thumbnail : String
  category : String
deriving DecidableEq

/-- Parse a non-empty all-digit character list as a natural number;
any other list (empty, or containing a non-digit) parses to `none`. -/
def parseDigits (cs : List Char) : Option Nat :=
  match cs with
  | [] => none
  | _ => cs.foldl
      (fun acc c =>
        match acc with
        | none => none
        | some n => if c.isDigit then some (n * 10 + (c.toNat - 48)) else none)
      (some 0)

/-- Model of `pd.to_numeric(value, errors=coerce)` applied to one raw
`subscribers` cell (main.py line 97): a numeric literal becomes a number,
anything malformed (e.g. the `"Hidden"` sentinel) becomes the missing value
`none` (pandas `NaN`).  Subscriber counts are decimal digit strings, so the
numeric grammar is modelled as non-negative integer literals. -/
def toNumeric (s : String) : Option ℚ :=
  (parseDigits s.toList).map (fun n => (n : ℚ))

/-- Model of `str(row["category"]).split(",")[0]` (main.py line 161):
the prefix of the string up to the first comma. -/
def headSplit (s : String) : String :=
  ⟨s.toList.takeWhile (fun c => c ≠ ',')⟩

/-- The `Channel` class (main.py lines 101-125): a channel node.
`owners` holds the names of the `Person` objects attached by `addOwner`;
the constructor always starts it empty (the `owners` parameter of the
Python constructor is ignored by its body). -/
structure Channel where
  name : String
  id : String
  num_subs : Option ℚ
  category : String
  owners : List String
  icon : String
deriving DecidableEq

/-- Method `Channel.addOwner` (main.py lines 113-114): append the person,
unconditionally (no uniqueness check). -/
def Channel.addOwner (c : Channel) (pname : String) : Channel :=
  { c with owners := c.owners ++ [pname] }

/-- Apply `addOwner` to the registry object found by the id lookup:
the first entry whose `id` matches.  (The Python code mutates the object
returned by `next((c for c in channellist if c.id == channel_id), None)`,
which is exactly the first match.) -/
def addOwnerById (pname i : String) : List Channel → List Channel
  | [] => []
  | c :: cs => if c.id = i then c.addOwner pname :: cs else c :: addOwnerById pname i cs

/-- The `Person` class (main.py lines 128-168): `channels` is the ordered
list of channel references this person owns, represented by channel ids. -/
structure Person where
  name : String
  color : String
  channels : List String
deriving DecidableEq

/-- The `Channel` constructed by `generateChannels` for a fresh row
(main.py lines 157-163): `num_subs` comes from the persisted
`subscribers_numeric` column, that is `to_numeric` of the raw value;
`category` keeps only the text before the first comma. -/
def channelOfRow (r : Row) : Channel :=
  { name := r.channel_title
    id := r.channel_id
    num_subs := toNumeric r.subscribers
    category := headSplit r.category
    owners := []
    icon := r.thumbnail }

/-- Registry effect of one loop iteration of `generateChannels`
(main.py lines 148-168): look the id up; if absent, construct and
register the channel; then attach the current person as an owner of the
resolved object. -/
def stepReg (pname : String) (reg : List Channel) (r : Row) : List Channel :=
  match reg.find? (fun c => c.id == r.channel_id) with
  | some _ => addOwnerById pname r.channel_id reg
  | none => addOwnerById pname r.channel_id (reg ++ [channelOfRow r])

/-- One loop iteration of `generateChannels`: the state is the pair of the
person's `channels` list (ids, insertion order) and the shared registry.
`if ch not in self.channels` is an identity test in Python; on
registry-resident objects it agrees with the id test used here. -/
def genStep (pname : String) (st : List String × List Channel) (r : Row) :
    List String × List Channel :=
  ((if r.channel_id ∈ st.1 then st.1 else st.1 ++ [r.channel_id]),
   stepReg pname st.2 r)

/-- Method `Person.generateChannels` (main.py lines 146-168): fold the rows of one
user's dataframe over the shared registry, starting from the person's empty
`channels` list; returns the person's final `channels` list and the updated
registry. -/
def generateChannels (pname : String) (rows : List Row) (channellist : List Channel) :
    List String × List Channel :=
  rows.foldl (genStep pname) ([], channellist)

/-- One file step of `load_users_from_csv` (main.py lines 178-184): process the
file's rows against the shared registry and append the new `Person`.
In `load_users_from_csv` (main.py lines 171-186) the directory scan is
modelled by an explicit list of files, each a pair of the user name (the
file name with `.csv` stripped) and its parsed rows; the random color
generator is modelled by an explicit assignment `color` from user name to
color string.  One `Person` is created per file and all files share one
registry, threaded left to right. -/
def loadStep (color : String → String) (acc : List Person × List Channel)
    (f : String × List Row) : List Person × List Channel :=
  let res := generateChannels f.1 f.2 acc.2
  (acc.1 ++ [{ name := f.1, color := color f.1, channels := res.1 }], res.2)

def load_users_from_csv (files : List (String × List Row)) (color : String → String) :
    List Person × List Channel :=
  files.foldl (loadStep color) ([], [])

/-- The registry produced by threading all files' rows through `stepReg`
left to right; `load_users_from_csv` computes exactly this registry. -/
def regFiles (files : List (String × List Row)) (reg : List Channel) : List Channel :=
  files.foldl (fun reg f => f.2.foldl (stepReg f.1) reg) reg

/-- The `networkx.Graph` result, restricted to what `build_network_graph`
writes: the node keys in insertion order (`add_node` of an existing key is
a no-op on the key set), the undirected edges with their `color` attribute
(`add_edge` of an existing edge overwrites the attribute), the `size`
attribute writes for channel nodes, and a flag recording the user-visible
`"Warning: No valid channels found"` no-data message. -/
structure Graph where
  nodes : List String
  edges : List (Sym2 String × String)
  sizes : List (String × ℚ)
  warning : Bool
deriving DecidableEq

/-- Model of `networkx` `add_node`: append the key unless already present. -/
def addNode (ns : List String) (n : String) : List String :=
  if n ∈ ns then ns else ns ++ [n]

/-- Model of the `networkx` `add_edge` attribute write: if the (undirected) edge exists,
overwrite its color; otherwise append it. -/
def setEdge (e : Sym2 String) (col : String) :
    List (Sym2 String × String) → List (Sym2 String × String)
  | [] => [(e, col)]
  | x :: xs => if x.1 = e then (e, col) :: xs else x :: setEdge e col xs

/-- The filter of main.py lines 194-197: with `display_degree_one` keep
everything, otherwise keep the channels with more than one owner. -/
def validChannels (display_degree_one : Bool) (channellist : List Channel) :
    List Channel :=
  if display_degree_one then channellist
  else channellist.filter (fun c => 1 < c.owners.length)

/-- Model of `max(len(channel.owners) for channel in validlist)` (main.py line 214);
the Python `max` is only evaluated on a non-empty list, where it agrees
with this fold. -/
def maxOwners (validlist : List Channel) : Nat :=
  (validlist.map (fun c => c.owners.length)).foldl max 0

/-- The `size` writes of main.py lines 215-216, one per surviving channel,
keyed by channel id, with exact rational arithmetic in place of Python
floats. -/
def channelSizes (validlist : List Channel) : List (String × ℚ) :=
  validlist.map
    (fun c => (c.id, (((c.owners.length : ℚ) / (maxOwners validlist : ℚ)) + 2) * 8))

/-- One edge-loop iteration of main.py lines 209-211: if the referenced
channel survived the filter (`if channel in validlist`, an identity test
that agrees with the id test on registry-resident channels), add the
undirected edge from the person to the channel, colored with the person's
color; `add_edge` also inserts both endpoint keys. -/
def edgeStep (validlist : List Channel) (p : Person)
    (st : List String × List (Sym2 String × String)) (i : String) :
    List String × List (Sym2 String × String) :=
  if validlist.any (fun c => c.id == i) then
    (addNode (addNode st.1 p.name) i, setEdge (Sym2.mk (p.name, i)) p.color st.2)
  else st

/-- One person-loop iteration of main.py lines 207-211: add the person's
node, then the edges to its surviving channels. -/
def personStep (validlist : List Channel)
    (st : List String × List (Sym2 String × String)) (p : Person) :
    List String × List (Sym2 String × String) :=
  p.channels.foldl (edgeStep validlist p) (addNode st.1 p.name, st.2)

/-- The channel-node loop of main.py lines 204-205. -/
def channelNodes (validlist : List Channel) : List String :=
  validlist.foldl (fun ns c => addNode ns c.id) []

/-- The non-degenerate branch of `build_network_graph`: channel nodes,
then person nodes and edges, then sizes. -/
def buildValid (personlist : List Person) (validlist : List Channel) : Graph :=
  let st := personlist.foldl (personStep validlist) (channelNodes validlist, [])
  { nodes := st.1, edges := st.2, sizes := channelSizes validlist, warning := false }

/-- The early return of main.py lines 199-201: the empty graph, with the
`warning` flag recording the printed no-data message. -/
def noDataGraph : Graph :=
  { nodes := [], edges := [], sizes := [], warning := true }

/-- Function `build_network_graph` (main.py lines 189-218). -/
def build_network_graph (personlist : List Person) (channellist : List Channel)
    (display_degree_one : Bool := false) : Graph :=
  let validlist := validChannels display_degree_one channellist
  if validlist.isEmpty then noDataGraph
  else buildValid personlist validlist

/-- The owners list of the channel the id lookup resolves `i` to: the first
registry entry with id `i` (empty when the lookup fails). -/
def ownersOf (reg : List Channel) (i : String) : List String :=
  match reg.find? (fun c => c.id == i) with
  | some c => c.owners
  | none => []

/-! ### Basic lemmas about the registry operations -/

theorem ownersOf_nil (i : String) : ownersOf [] i = [] := rfl

theorem ownersOf_cons (c : Channel) (cs : List Channel) (i : String) :
    ownersOf (c :: cs) i = if c.id = i then c.owners else ownersOf cs i := by
  by_cases h : c.id = i
  · simp [ownersOf, List.find?_cons_of_pos, h]
  · simp [ownersOf, List.find?_cons_of_neg, h]

theorem addOwnerById_of_forall_ne (pname i : String) (reg : List Channel)
    (h : ∀ c ∈ reg, c.id ≠ i) : addOwnerById pname i reg = reg := by
  induction reg with
  | nil => rfl
  | cons c cs ih =>
      have hc : c.id ≠ i := h c (by simp)
      simp only [addOwnerById, if_neg hc]
      rw [ih (fun x hx => h x (by simp [hx]))]

theorem ownersOf_addOwnerById_self (pname i : String) (reg : List Channel)
    (h : ∃ c ∈ reg, c.id = i) :
    ownersOf (addOwnerById pname i reg) i = ownersOf reg i ++ [pname] := by
  induction reg with
  | nil => simp at h
  | cons c cs ih =>
      by_cases hc : c.id = i
      · simp [addOwnerById, if_pos hc, ownersOf_cons, Channel.addOwner, hc]
      · have h' : ∃ x ∈ cs, x.id = i := by
          rcases h with ⟨x, hx, hxi⟩
          rcases List.mem_cons.mp hx with rfl | hmem
          · exact absurd hxi hc
          · exact ⟨x, hmem, hxi⟩
        simp [addOwnerById, if_neg hc, ownersOf_cons, hc, ih h']

theorem ownersOf_addOwnerById_ne (pname i j : String) (reg : List Channel)
    (h : j ≠ i) :
    ownersOf (addOwnerById pname i reg) j = ownersOf reg j := by
  induction reg with
  | nil => rfl
  | cons c cs ih =>
      by_cases hc : c.id = i
      · have hcj : ¬ c.id = j := by
          intro hcj; exact h (hcj ▸ hc ▸ rfl)
        simp [addOwnerById, if_pos hc, ownersOf_cons, Channel.addOwner, hcj]
      · simp [addOwnerById, if_neg hc, ownersOf_cons, ih]

theorem ownersOf_append_single (reg : List Channel) (c : Channel) (i : String) :
    ownersOf (reg ++ [c]) i =
      match reg.find? (fun x => x.id == i) with
      | some x => x.owners
      | none => if c.id = i then c.owners else [] := by
  simp only [ownersOf, List.find?_append]
  cases hf : reg.find? (fun x => x.id == i) with
  | some x => simp [Option.or]
  | none =>
      by_cases hc : c.id = i
      · have hb : (c.id == i) = true := by simp [hc]
        simp [Option.or, List.find?, hb, hc]
      · have hb : (c.id == i) = false := by simp [hc]
        simp [Option.or, List.find?, hb, hc]

theorem ownersOf_stepReg (pname : String) (reg : List Channel) (r : Row) (j : String) :
    ownersOf (stepReg pname reg r) j =
      if r.channel_id = j then ownersOf reg j ++ [pname] else ownersOf reg j := by
  unfold stepReg
  split
  · rename_i c hf
    have hc : c ∈ reg := List.mem_of_find?_eq_some hf
    have hci : c.id = r.channel_id := by
      have := List.find?_some hf
      simpa using this
    by_cases hj : r.channel_id = j
    · subst hj
      rw [if_pos rfl]
      exact ownersOf_addOwnerById_self pname r.channel_id reg ⟨c, hc, hci⟩
    · rw [if_neg hj]
      exact ownersOf_addOwnerById_ne pname r.channel_id j reg (fun h => hj h.symm)
  · rename_i hf
    by_cases hj : r.channel_id = j
    · subst hj
      have hmem : ∃ c ∈ reg ++ [channelOfRow r], c.id = r.channel_id :=
        ⟨channelOfRow r, by simp, rfl⟩
      rw [if_pos rfl, ownersOf_addOwnerById_self pname r.channel_id _ hmem,
        ownersOf_append_single]
      have hfn : reg.find? (fun x => x.id == r.channel_id) = none := hf
      simp only [hfn]
      have hz : ownersOf reg r.channel_id = [] := by
        simp [ownersOf, hfn]
      rw [hz]
      simp [channelOfRow]
    · rw [if_neg hj, ownersOf_addOwnerById_ne pname r.channel_id j _ (fun h => hj h.symm),
        ownersOf_append_single]
      cases hg : reg.find? (fun x => x.id == j) with
      | some x => simp [ownersOf, hg]
      | none =>
          have hne : ¬ (channelOfRow r).id = j := by simp [channelOfRow]; exact hj
          simp [ownersOf, hg, hne]

theorem snd_foldl_genStep (pname : String) (rows : List Row)
    (pch : List String) (reg : List Channel) :
    (rows.foldl (genStep pname) (pch, reg)).2 = rows.foldl (stepReg pname) reg := by
  induction rows generalizing pch reg with
  | nil => rfl
  | cons r rs ih => simpa [genStep] using ih _ _

theorem snd_generateChannels (pname : String) (rows : List Row) (reg : List Channel) :
    (generateChannels pname rows reg).2 = rows.foldl (stepReg pname) reg :=
  snd_foldl_genStep pname rows [] reg

theorem ownersOf_foldl_stepReg (pname : String) (rows : List Row)
    (reg : List Channel) (j : String) :
    ownersOf (rows.foldl (stepReg pname) reg) j =
      ownersOf reg j ++
        List.replicate (rows.countP (fun r => r.channel_id == j)) pname := by
  induction rows generalizing reg with
  | nil => simp
  | cons r rs ih =>
      rw [List.foldl_cons, ih, ownersOf_stepReg, List.countP_cons]
      by_cases hj : r.channel_id = j
      · have hb : (r.channel_id == j) = true := by simp [hj]
        rw [if_pos hj, hb]
        simp [List.replicate_succ]
      · have hb : (r.channel_id == j) = false := by simp [hj]
        rw [if_neg hj, hb]
        simp

/-! ### Identifiers of the registry -/

theorem map_id_addOwnerById (pname i : String) (reg : List Channel) :
    (addOwnerById pname i reg).map Channel.id = reg.map Channel.id := by
  induction reg with
  | nil => rfl
  | cons c cs ih =>
      by_cases hc : c.id = i
      · simp [addOwnerById, if_pos hc, Channel.addOwner]
      · simp [addOwnerById, if_neg hc, ih]

theorem map_id_stepReg_found (pname : String) (reg : List Channel) (r : Row) (c : Channel)
    (h : reg.find? (fun c => c.id == r.channel_id) = some c) :
    (stepReg pname reg r).map Channel.id = reg.map Channel.id := by
  simp [stepReg, h, map_id_addOwnerById]

theorem map_id_stepReg_fresh (pname : String) (reg : List Channel) (r : Row)
    (h : reg.find? (fun c => c.id == r.channel_id) = none) :
    (stepReg pname reg r).map Channel.id = reg.map Channel.id ++ [r.channel_id] := by
  simp [stepReg, h, map_id_addOwnerById, channelOfRow]

theorem nodup_map_id_stepReg (pname : String) (reg : List Channel) (r : Row)
    (h : (reg.map Channel.id).Nodup) :
    ((stepReg pname reg r).map Channel.id).Nodup := by
  cases hf : reg.find? (fun c => c.id == r.channel_id) with
  | some c => rw [map_id_stepReg_found pname reg r c hf]; exact h
  | none =>
      rw [map_id_stepReg_fresh pname reg r hf]
      have hnot : r.channel_id ∉ reg.map Channel.id := by
        intro hmem
        rcases List.mem_map.mp hmem with ⟨c, hc, hcid⟩
        have := List.find?_eq_none.mp hf c hc
        simp [hcid] at this
      simp [List.nodup_append, h, hnot]

theorem mem_map_id_stepReg_mono (pname : String) (reg : List Channel) (r : Row)
    (x : String) (h : x ∈ reg.map Channel.id) :
    x ∈ (stepReg pname reg r).map Channel.id := by
  cases hf : reg.find? (fun c => c.id == r.channel_id) with
  | some c => rw [map_id_stepReg_found pname reg r c hf]; exact h
  | none => rw [map_id_stepReg_fresh pname reg r hf]; exact List.mem_append_left _ h

theorem row_id_mem_stepReg (pname : String) (reg : List Channel) (r : Row) :
    r.channel_id ∈ (stepReg pname reg r).map Channel.id := by
  cases hf : reg.find? (fun c => c.id == r.channel_id) with
  | some c =>
      rw [map_id_stepReg_found pname reg r c hf]
      have hci : c.id = r.channel_id := by
        have := List.find?_some hf
        simpa using this
      exact hci ▸ List.mem_map_of_mem _ (List.mem_of_find?_eq_some hf)
  | none => rw [map_id_stepReg_fresh pname reg r hf]; simp

theorem nodup_map_id_foldl_stepReg (pname : String) (rows : List Row) (reg : List Channel)
    (h : (reg.map Channel.id).Nodup) :
    ((rows.foldl (stepReg pname) reg).map Channel.id).Nodup := by
  induction rows generalizing reg with
  | nil => exact h
  | cons r rs ih => exact ih _ (nodup_map_id_stepReg pname reg r h)

theorem mem_map_id_foldl_stepReg_mono (pname : String) (rows : List Row)
    (reg : List Channel) (x : String) (h : x ∈ reg.map Channel.id) :
    x ∈ ((rows.foldl (stepReg pname) reg).map Channel.id) := by
  induction rows generalizing reg with
  | nil => exact h
  | cons r rs ih => exact ih _ (mem_map_id_stepReg_mono pname reg r x h)

theorem row_id_mem_foldl_stepReg (pname : String) (rows : List Row) (reg : List Channel)
    (r : Row) (hr : r ∈ rows) :
    r.channel_id ∈ ((rows.foldl (stepReg pname) reg).map Channel.id) := by
  induction rows generalizing reg with
  | nil => simp at hr
  | cons r' rs ih =>
      rcases List.mem_cons.mp hr with rfl | hmem
      · exact mem_map_id_foldl_stepReg_mono pname rs _ _ (row_id_mem_stepReg pname reg r)
      · exact ih _ hmem

theorem snd_foldl_loadStep (color : String → String) (files : List (String × List Row))
    (st : List Person × List Channel) :
    (files.foldl (loadStep color) st).2 = regFiles files st.2 := by
  induction files generalizing st with
  | nil => rfl
  | cons f fs ih =>
      rw [List.foldl_cons, ih]
      show regFiles fs (loadStep color st f).2 = regFiles (f :: fs) st.2
      have h2 : (loadStep color st f).2 = f.2.foldl (stepReg f.1) st.2 :=
        snd_generateChannels f.1 f.2 st.2
      rw [h2]
      rfl

theorem snd_load_users_from_csv (files : List (String × List Row))
    (color : String → String) :
    (load_users_from_csv files color).2 = regFiles files [] :=
  snd_foldl_loadStep color files ([], [])

theorem nodup_map_id_regFiles (files : List (String × List Row)) (reg : List Channel)
    (h : (reg.map Channel.id).Nodup) :
    ((regFiles files reg).map Channel.id).Nodup := by
  induction files generalizing reg with
  | nil => exact h
  | cons f fs ih =>
      rw [regFiles, List.foldl_cons]
      exact ih _ (nodup_map_id_foldl_stepReg f.1 f.2 reg h)

theorem mem_map_id_regFiles_mono (files : List (String × List Row)) (reg : List Channel)
    (x : String) (h : x ∈ reg.map Channel.id) :
    x ∈ (regFiles files reg).map Channel.id := by
  induction files generalizing reg with
  | nil => exact h
  | cons f fs ih =>
      rw [regFiles, List.foldl_cons]
      exact ih _ (mem_map_id_foldl_stepReg_mono f.1 f.2 reg x h)

theorem row_id_mem_regFiles (files : List (String × List Row)) (reg : List Channel)
    (f : String × List Row) (hf : f ∈ files) (r : Row) (hr : r ∈ f.2) :
    r.channel_id ∈ (regFiles files reg).map Channel.id := by
  induction files generalizing reg with
  | nil => simp at hf
  | cons f' fs ih =>
      rw [regFiles, List.foldl_cons]
      rcases List.mem_cons.mp hf with rfl | hmem
      · exact mem_map_id_regFiles_mono fs _ _ (row_id_mem_foldl_stepReg f.1 f.2 reg r hr)
      · exact ih _ hmem

/-- Claim C2: every channel id is represented by exactly one `Channel`
object in the shared registry.  After `load_users_from_csv` the registry's
ids are pairwise distinct (identity dedup) and every id referenced by any
row of any user's file resolves to a registry entry; moreover a single
`generateChannels` call preserves distinctness of the registry's ids. -/
theorem registry_identity_dedup (files : List (String × List Row))
    (color : String → String) (pname : String) (rows : List Row) (reg : List Channel) :
    (((load_users_from_csv files color).2).map Channel.id).Nodup ∧
    (∀ f ∈ files, ∀ r ∈ f.2,
      ∃ c ∈ (load_users_from_csv files color).2, c.id = r.channel_id) ∧
    ((reg.map Channel.id).Nodup →
      (((generateChannels pname rows reg).2).map Channel.id).Nodup) := by
  refine ⟨?_, ?_, ?_⟩
  · rw [snd_load_users_from_csv]
    exact nodup_map_id_regFiles files [] (by simp)
  · intro f hf r hr
    rw [snd_load_users_from_csv]
    have := row_id_mem_regFiles files [] f hf r hr
    rcases List.mem_map.mp this with ⟨c, hc, hcid⟩
    exact ⟨c, hc, hcid⟩
  · intro h
    rw [snd_generateChannels]
    exact nodup_map_id_foldl_stepReg pname rows reg h

/-! ### Concrete sample data -/

def rowA : Row :=
  { channel_id := "ch1", channel_title := "Chan One", subscribers := "100",
    thumbnail := "http://icon1", category := "Music, Pop" }

def rowB : Row :=
  { channel_id := "ch2", channel_title := "Chan Two", subscribers := "Hidden",
    thumbnail := "http://icon2", category := "News" }

def sampleFiles : List (String × List Row) := [("alice", [rowA, rowB]), ("bob", [rowA])]

def sampleColor : String → String := fun _ => "red"

/-- Witness for C2 at concrete input: two users sharing channel `ch1`. -/
theorem registry_identity_dedup_witness :
    (∃ c ∈ (load_users_from_csv sampleFiles sampleColor).2, c.id = rowA.channel_id) ∧
    (((generateChannels "p" [rowA] []).2).map Channel.id).Nodup :=
  ⟨(registry_identity_dedup sampleFiles sampleColor "p" [rowA] []).2.1
      ("alice", [rowA, rowB]) (by decide) rowA (by decide),
   (registry_identity_dedup sampleFiles sampleColor "p" [rowA] []).2.2 (by decide)⟩

/-- Claim C5: `addOwner` appends unconditionally, so after one
`generateChannels` call the person occurs in a channel's owners list once
per row bearing that channel's id: the owners list of the channel resolved
by id `i` grows by exactly `replicate` of the matching row count; starting
from an empty registry the person's occurrence count equals the raw row
count for that id. -/
theorem generateChannels_owner_per_row (pname : String) (rows : List Row)
    (reg : List Channel) (i : String) :
    ownersOf ((generateChannels pname rows reg).2) i =
      ownersOf reg i ++
        List.replicate (rows.countP (fun r => r.channel_id == i)) pname ∧
    (ownersOf ((generateChannels pname rows []).2) i).count pname =
      rows.countP (fun r => r.channel_id == i) := by
  constructor
  · rw [snd_generateChannels]
    exact ownersOf_foldl_stepReg pname rows reg i
  · rw [snd_generateChannels, ownersOf_foldl_stepReg]
    simp [ownersOf]

/-! ### Membership characterizations of the built graph -/

theorem mem_addNode (ns : List String) (n x : String) :
    x ∈ addNode ns n ↔ x ∈ ns ∨ x = n := by
  unfold addNode
  by_cases h : n ∈ ns
  · rw [if_pos h]
    constructor
    · exact Or.inl
    · rintro (hx | rfl)
      · exact hx
      · exact h
  · rw [if_neg h]
    simp [List.mem_append]

theorem map_fst_setEdge (e : Sym2 String) (col : String)
    (l : List (Sym2 String × String)) :
    (setEdge e col l).map Prod.fst =
      if e ∈ l.map Prod.fst then l.map Prod.fst else l.map Prod.fst ++ [e] := by
  induction l with
  | nil => simp [setEdge]
  | cons x xs ih =>
      by_cases hx : x.1 = e
      · have hm : e ∈ (x :: xs).map Prod.fst := by simp [← hx]
        simp [setEdge, if_pos hx, hm, hx]
      · by_cases he : e ∈ xs.map Prod.fst
        · have hm : e ∈ (x :: xs).map Prod.fst := by simp [he]
          simp [setEdge, if_neg hx, ih, he, hm]
        · have hm : e ∉ (x :: xs).map Prod.fst := by
            simp only [List.map_cons, List.mem_cons]
            rintro (h | h)
            · exact hx h.symm
            · exact he h
          simp [setEdge, if_neg hx, ih, he, hm]
          rw [if_neg (fun h => hx h.symm)]

theorem mem_map_fst_setEdge (e : Sym2 String) (col : String)
    (l : List (Sym2 String × String)) (x : Sym2 String) :
    x ∈ (setEdge e col l).map Prod.fst ↔ x ∈ l.map Prod.fst ∨ x = e := by
  rw [map_fst_setEdge]
  by_cases he : e ∈ l.map Prod.fst
  · rw [if_pos he]
    constructor
    · exact Or.inl
    · rintro (h | rfl)
      · exact h
      · exact he
  · rw [if_neg he]
    simp

theorem nodup_map_fst_setEdge (e : Sym2 String) (col : String)
    (l : List (Sym2 String × String)) (h : (l.map Prod.fst).Nodup) :
    ((setEdge e col l).map Prod.fst).Nodup := by
  rw [map_fst_setEdge]
  by_cases he : e ∈ l.map Prod.fst
  · rw [if_pos he]; exact h
  · rw [if_neg he]; simp [List.nodup_append, h, he]

theorem any_id_iff (v : List Channel) (i : String) :
    (v.any fun c => c.id == i) = true ↔ ∃ c ∈ v, c.id = i := by
  simp [List.any_eq_true]

theorem nodes_edgeStep (v : List Channel) (p : Person)
    (st : List String × List (Sym2 String × String)) (i x : String) :
    x ∈ (edgeStep v p st i).1 ↔
      x ∈ st.1 ∨ ((∃ c ∈ v, c.id = i) ∧ (x = p.name ∨ x = i)) := by
  unfold edgeStep
  by_cases h : (v.any fun c => c.id == i) = true
  · rw [if_pos h]
    have hv := (any_id_iff v i).mp h
    simp only [mem_addNode]
    constructor
    · rintro ((hx | rfl) | rfl)
      · exact Or.inl hx
      · exact Or.inr ⟨hv, Or.inl rfl⟩
      · exact Or.inr ⟨hv, Or.inr rfl⟩
    · rintro (hx | ⟨_, (rfl | rfl)⟩)
      · exact Or.inl (Or.inl hx)
      · exact Or.inl (Or.inr rfl)
      · exact Or.inr rfl
  · rw [if_neg h]
    have hv : ¬ ∃ c ∈ v, c.id = i := fun hex => h ((any_id_iff v i).mpr hex)
    simp [hv]

theorem edges_edgeStep (v : List Channel) (p : Person)
    (st : List String × List (Sym2 String × String)) (i : String) (x : Sym2 String) :
    x ∈ (edgeStep v p st i).2.map Prod.fst ↔
      x ∈ st.2.map Prod.fst ∨ ((∃ c ∈ v, c.id = i) ∧ x = Sym2.mk (p.name, i)) := by
  unfold edgeStep
  by_cases h : (v.any fun c => c.id == i) = true
  · rw [if_pos h]
    have hv := (any_id_iff v i).mp h
    rw [mem_map_fst_setEdge]
    constructor
    · rintro (hx | rfl)
      · exact Or.inl hx
      · exact Or.inr ⟨hv, rfl⟩
    · rintro (hx | ⟨_, rfl⟩)
      · exact Or.inl hx
      · exact Or.inr rfl
  · rw [if_neg h]
    have hv : ¬ ∃ c ∈ v, c.id = i := fun hex => h ((any_id_iff v i).mpr hex)
    simp [hv]

theorem nodes_edgeFold (v : List Channel) (p : Person) (l : List String)
    (st : List String × List (Sym2 String × String)) (x : String) :
    x ∈ (l.foldl (edgeStep v p) st).1 ↔
      x ∈ st.1 ∨ ∃ i ∈ l, (∃ c ∈ v, c.id = i) ∧ (x = p.name ∨ x = i) := by
  induction l generalizing st with
  | nil => simp
  | cons i is ih =>
      rw [List.foldl_cons, ih, nodes_edgeStep]
      constructor
      · rintro ((hx | ⟨hv, hpi⟩) | ⟨i', hi', hv, hpi⟩)
        · exact Or.inl hx
        · exact Or.inr ⟨i, List.mem_cons_self i is, hv, hpi⟩
        · exact Or.inr ⟨i', List.mem_cons_of_mem i hi', hv, hpi⟩
      · rintro (hx | ⟨i', hi', hv, hpi⟩)
        · exact Or.inl (Or.inl hx)
        · rcases List.mem_cons.mp hi' with rfl | hmem
          · exact Or.inl (Or.inr ⟨hv, hpi⟩)
          · exact Or.inr ⟨i', hmem, hv, hpi⟩

theorem edges_edgeFold (v : List Channel) (p : Person) (l : List String)
    (st : List String × List (Sym2 String × String)) (x : Sym2 String) :
    x ∈ (l.foldl (edgeStep v p) st).2.map Prod.fst ↔
      x ∈ st.2.map Prod.fst ∨
        ∃ i ∈ l, (∃ c ∈ v, c.id = i) ∧ x = Sym2.mk (p.name, i) := by
  induction l generalizing st with
  | nil => simp
  | cons i is ih =>
      rw [List.foldl_cons, ih, edges_edgeStep]
      constructor
      · rintro ((hx | ⟨hv, hpi⟩) | ⟨i', hi', hv, hpi⟩)
        · exact Or.inl hx
        · exact Or.inr ⟨i, List.mem_cons_self i is, hv, hpi⟩
        · exact Or.inr ⟨i', List.mem_cons_of_mem i hi', hv, hpi⟩
      · rintro (hx | ⟨i', hi', hv, hpi⟩)
        · exact Or.inl (Or.inl hx)
        · rcases List.mem_cons.mp hi' with rfl | hmem
          · exact Or.inl (Or.inr ⟨hv, hpi⟩)
          · exact Or.inr ⟨i', hmem, hv, hpi⟩

theorem nodes_personStep (v : List Channel)
    (st : List String × List (Sym2 String × String)) (p : Person) (x : String) :
    x ∈ (personStep v st p).1 ↔
      x ∈ st.1 ∨ x = p.name ∨
        ∃ i ∈ p.channels, (∃ c ∈ v, c.id = i) ∧ x = i := by
  unfold personStep
  rw [nodes_edgeFold]
  simp only [mem_addNode]
  constructor
  · rintro ((hx | rfl) | ⟨i, hi, hv, (rfl | hxi)⟩)
    · exact Or.inl hx
    · exact Or.inr (Or.inl rfl)
    · exact Or.inr (Or.inl rfl)
    · exact Or.inr (Or.inr ⟨i, hi, hv, hxi⟩)
  · rintro (hx | rfl | ⟨i, hi, hv, hxi⟩)
    · exact Or.inl (Or.inl hx)
    · exact Or.inl (Or.inr rfl)
    · exact Or.inr ⟨i, hi, hv, Or.inr hxi⟩

theorem edges_personStep (v : List Channel)
    (st : List String × List (Sym2 String × String)) (p : Person) (x : Sym2 String) :
    x ∈ (personStep v st p).2.map Prod.fst ↔
      x ∈ st.2.map Prod.fst ∨
        ∃ i ∈ p.channels, (∃ c ∈ v, c.id = i) ∧ x = Sym2.mk (p.name, i) := by
  unfold personStep
  rw [edges_edgeFold]

theorem nodes_personFold (v : List Channel) (pl : List Person)
    (st : List String × List (Sym2 String × String)) (x : String) :
    x ∈ (pl.foldl (personStep v) st).1 ↔
      x ∈ st.1 ∨ ∃ p ∈ pl, (x = p.name ∨
        ∃ i ∈ p.channels, (∃ c ∈ v, c.id = i) ∧ x = i) := by
  induction pl generalizing st with
  | nil => simp
  | cons p ps ih =>
      rw [List.foldl_cons, ih, nodes_personStep]
      constructor
      · rintro ((hx | hpx) | ⟨p', hp', hrest⟩)
        · exact Or.inl hx
        · exact Or.inr ⟨p, List.mem_cons_self p ps, hpx⟩
        · exact Or.inr ⟨p', List.mem_cons_of_mem p hp', hrest⟩
      · rintro (hx | ⟨p', hp', hrest⟩)
        · exact Or.inl (Or.inl hx)
        · rcases List.mem_cons.mp hp' with rfl | hmem
          · exact Or.inl (Or.inr hrest)
          · exact Or.inr ⟨p', hmem, hrest⟩

theorem edges_personFold (v : List Channel) (pl : List Person)
    (st : List String × List (Sym2 String × String)) (x : Sym2 String) :
    x ∈ (pl.foldl (personStep v) st).2.map Prod.fst ↔
      x ∈ st.2.map Prod.fst ∨
        ∃ p ∈ pl, ∃ i ∈ p.channels,
          (∃ c ∈ v, c.id = i) ∧ x = Sym2.mk (p.name, i) := by
  induction pl generalizing st with
  | nil => simp
  | cons p ps ih =>
      rw [List.foldl_cons, ih, edges_personStep]
      constructor
      · rintro ((hx | hpx) | ⟨p', hp', hrest⟩)
        · exact Or.inl hx
        · exact Or.inr ⟨p, List.mem_cons_self p ps, hpx⟩
        · exact Or.inr ⟨p', List.mem_cons_of_mem p hp', hrest⟩
      · rintro (hx | ⟨p', hp', hrest⟩)
        · exact Or.inl (Or.inl hx)
        · rcases List.mem_cons.mp hp' with rfl | hmem
          · exact Or.inl (Or.inr hrest)
          · exact Or.inr ⟨p', hmem, hrest⟩

theorem mem_foldl_addNode_id (v : List Channel) (init : List String) (x : String) :
    x ∈ v.foldl (fun ns c => addNode ns c.id) init ↔
      x ∈ init ∨ ∃ c ∈ v, c.id = x := by
  induction v generalizing init with
  | nil => simp
  | cons c cs ih =>
      rw [List.foldl_cons, ih]
      simp only [mem_addNode]
      constructor
      · rintro ((hx | rfl) | ⟨c', hc', hid⟩)
        · exact Or.inl hx
        · exact Or.inr ⟨c, List.mem_cons_self c cs, rfl⟩
        · exact Or.inr ⟨c', List.mem_cons_of_mem c hc', hid⟩
      · rintro (hx | ⟨c', hc', hid⟩)
        · exact Or.inl (Or.inl hx)
        · rcases List.mem_cons.mp hc' with rfl | hmem
          · exact Or.inl (Or.inr hid.symm)
          · exact Or.inr ⟨c', hmem, hid⟩

theorem mem_channelNodes (v : List Channel) (x : String) :
    x ∈ channelNodes v ↔ ∃ c ∈ v, c.id = x := by
  unfold channelNodes
  rw [mem_foldl_addNode_id]
  simp

theorem nodes_buildValid (pl : List Person) (v : List Channel) (x : String) :
    x ∈ (buildValid pl v).nodes ↔
      (∃ c ∈ v, c.id = x) ∨ ∃ p ∈ pl, p.name = x := by
  show x ∈ (pl.foldl (personStep v) (channelNodes v, [])).1 ↔ _
  rw [nodes_personFold]
  constructor
  · rintro (hc | ⟨p, hp, (rfl | ⟨i, _, hv, rfl⟩)⟩)
    · exact Or.inl ((mem_channelNodes v x).mp hc)
    · exact Or.inr ⟨p, hp, rfl⟩
    · exact Or.inl hv
  · rintro (hc | ⟨p, hp, rfl⟩)
    · exact Or.inl ((mem_channelNodes v x).mpr hc)
    · exact Or.inr ⟨p, hp, Or.inl rfl⟩

theorem edges_buildValid (pl : List Person) (v : List Channel) (x : Sym2 String) :
    x ∈ (buildValid pl v).edges.map Prod.fst ↔
      ∃ p ∈ pl, ∃ i ∈ p.channels,
        (∃ c ∈ v, c.id = i) ∧ x = Sym2.mk (p.name, i) := by
  show x ∈ (pl.foldl (personStep v) (channelNodes v, [])).2.map Prod.fst ↔ _
  rw [edges_personFold]
  simp

theorem mem_validChannels_false (cl : List Channel) (c : Channel) :
    c ∈ validChannels false cl ↔ c ∈ cl ∧ 1 < c.owners.length := by
  simp [validChannels, List.mem_filter]

/-- Claim C1: with the default `display_degree_one = false` and at least
one channel with more than one owner, the nodes of the built graph are
exactly the ids of the surviving channels (owner count above one) together
with all person names, and the edges are exactly the undirected pairs of a
person's name with a surviving channel id from that person's channel
list. -/
theorem build_network_graph_default_shape (pl : List Person) (cl : List Channel)
    (h : ∃ c ∈ cl, 1 < c.owners.length) :
    (∀ x, x ∈ (build_network_graph pl cl false).nodes ↔
        ((∃ c ∈ cl, 1 < c.owners.length ∧ c.id = x) ∨ ∃ p ∈ pl, p.name = x)) ∧
    (∀ e, e ∈ (build_network_graph pl cl false).edges.map Prod.fst ↔
        ∃ p ∈ pl, ∃ i ∈ p.channels,
          (∃ c ∈ cl, 1 < c.owners.length ∧ c.id = i) ∧ e = Sym2.mk (p.name, i)) := by
  have hne : ¬ (validChannels false cl).isEmpty = true := by
    rcases h with ⟨c, hc, hgt⟩
    intro he
    rw [List.isEmpty_iff] at he
    have : c ∈ validChannels false cl := (mem_validChannels_false cl c).mpr ⟨hc, hgt⟩
    rw [he] at this
    simp at this
  have hbuild : build_network_graph pl cl false = buildValid pl (validChannels false cl) := by
    unfold build_network_graph
    rw [if_neg hne]
  constructor
  · intro x
    rw [hbuild, nodes_buildValid]
    constructor
    · rintro (⟨c, hc, hid⟩ | hp)
      · rcases (mem_validChannels_false cl c).mp hc with ⟨hcl, hgt⟩
        exact Or.inl ⟨c, hcl, hgt, hid⟩
      · exact Or.inr hp
    · rintro (⟨c, hcl, hgt, hid⟩ | hp)
      · exact Or.inl ⟨c, (mem_validChannels_false cl c).mpr ⟨hcl, hgt⟩, hid⟩
      · exact Or.inr hp
  · intro e
    rw [hbuild, edges_buildValid]
    constructor
    · rintro ⟨p, hp, i, hi, ⟨c, hc, hid⟩, he⟩
      rcases (mem_validChannels_false cl c).mp hc with ⟨hcl, hgt⟩
      exact ⟨p, hp, i, hi, ⟨c, hcl, hgt, hid⟩, he⟩
    · rintro ⟨p, hp, i, hi, ⟨c, hcl, hgt, hid⟩, he⟩
      exact ⟨p, hp, i, hi, ⟨c, (mem_validChannels_false cl c).mpr ⟨hcl, hgt⟩, hid⟩, he⟩

/-! ### More concrete sample data -/

def chShared : Channel :=
  { name := "Chan One", id := "ch1", num_subs := some 100, category := "Music",
    owners := ["alice", "bob"], icon := "http://icon1" }

def chSolo : Channel :=
  { name := "Chan Two", id := "ch2", num_subs := none, category := "News",
    owners := ["alice"], icon := "http://icon2" }

def personAlice : Person := { name := "alice", color := "red", channels := ["ch1", "ch2"] }

def personBob : Person := { name := "bob", color := "blue", channels := ["ch1"] }

/-- Witness for C1: two persons sharing channel `ch1`; channel `ch2` has a
single owner. -/
theorem build_network_graph_default_shape_witness :
    (∃ c ∈ [chShared, chSolo], 1 < c.owners.length) ∧
    ((∀ x, x ∈ (build_network_graph [personAlice, personBob] [chShared, chSolo] false).nodes ↔
        ((∃ c ∈ [chShared, chSolo], 1 < c.owners.length ∧ c.id = x) ∨
          ∃ p ∈ [personAlice, personBob], p.name = x)) ∧
     (∀ e, e ∈ (build_network_graph [personAlice, personBob] [chShared, chSolo] false).edges.map Prod.fst ↔
        ∃ p ∈ [personAlice, personBob], ∃ i ∈ p.channels,
          (∃ c ∈ [chShared, chSolo], 1 < c.owners.length ∧ c.id = i) ∧
            e = Sym2.mk (p.name, i))) :=
  ⟨by decide, build_network_graph_default_shape _ _ (by decide)⟩

/-- Claim C6: every node of the default graph (threshold: more than one
owner) is a node of the graph built with `display_degree_one = true`. -/
theorem display_degree_one_superset (pl : List Person) (cl : List Channel) (x : String)
    (h : x ∈ (build_network_graph pl cl false).nodes) :
    x ∈ (build_network_graph pl cl true).nodes := by
  by_cases hne : (validChannels false cl).isEmpty = true
  · unfold build_network_graph at h
    rw [if_pos hne] at h
    simp [noDataGraph] at h
  · unfold build_network_graph at h
    rw [if_neg hne, nodes_buildValid] at h
    have hcl : cl ≠ [] := by
      intro hnil
      apply hne
      rw [hnil]
      rfl
    have htrue : ¬ (validChannels true cl).isEmpty = true := by
      have hv : validChannels true cl = cl := rfl
      rw [hv]
      cases cl with
      | nil => exact absurd rfl hcl
      | cons c cs => simp
    unfold build_network_graph
    rw [if_neg htrue, nodes_buildValid]
    rcases h with ⟨c, hc, hid⟩ | hp
    · have hmem : c ∈ cl := ((mem_validChannels_false cl c).mp hc).1
      exact Or.inl ⟨c, show c ∈ validChannels true cl from hmem, hid⟩
    · exact Or.inr hp

/-- Witness for C6 at concrete input. -/
theorem display_degree_one_superset_witness :
    ("ch1" ∈ (build_network_graph [personAlice, personBob] [chShared] false).nodes) ∧
    ("ch1" ∈ (build_network_graph [personAlice, personBob] [chShared] true).nodes) :=
  ⟨by decide, display_degree_one_superset _ _ _ (by decide)⟩

/-! ### The maximum owner count -/

theorem le_foldl_max_init (l : List Nat) (a : Nat) : a ≤ l.foldl max a := by
  induction l generalizing a with
  | nil => exact le_refl a
  | cons x xs ih => exact le_trans (le_max_left a x) (ih (max a x))

theorem mem_le_foldl_max (l : List Nat) (a x : Nat) (hx : x ∈ l) : x ≤ l.foldl max a := by
  induction l generalizing a with
  | nil => simp at hx
  | cons y ys ih =>
      rcases List.mem_cons.mp hx with rfl | hmem
      · exact le_trans (le_max_right a x) (le_foldl_max_init ys (max a x))
      · exact ih (max a y) hmem

theorem foldl_max_choice (l : List Nat) (a : Nat) :
    l.foldl max a = a ∨ l.foldl max a ∈ l := by
  induction l generalizing a with
  | nil => exact Or.inl rfl
  | cons x xs ih =>
      rcases ih (max a x) with h | h
      · rcases max_choice a x with hm | hm
        · exact Or.inl (by rw [List.foldl_cons, h, hm])
        · exact Or.inr (by rw [List.foldl_cons, h, hm]; exact List.mem_cons_self x xs)
      · exact Or.inr (List.mem_cons_of_mem x h)

theorem maxOwners_attained (v : List Channel) (hv : v ≠ []) :
    (∃ c ∈ v, c.owners.length = maxOwners v) ∧
    ∀ c ∈ v, c.owners.length ≤ maxOwners v := by
  constructor
  · rcases foldl_max_choice (v.map fun c => c.owners.length) 0 with h | h
    · cases v with
      | nil => exact absurd rfl hv
      | cons c cs =>
          have hy : c.owners.length ≤ maxOwners (c :: cs) :=
            mem_le_foldl_max _ 0 _ (by simp)
          rw [show maxOwners (c :: cs) =
            ((c :: cs).map fun c => c.owners.length).foldl max 0 from rfl, h] at hy
          have hz : c.owners.length = 0 := Nat.le_zero.mp hy
          refine ⟨c, by simp, ?_⟩
          show c.owners.length =
            ((c :: cs).map fun c => c.owners.length).foldl max 0
          rw [hz, h]
    · rcases List.mem_map.mp h with ⟨c, hc, hlen⟩
      exact ⟨c, hc, hlen⟩
  · intro c hc
    exact mem_le_foldl_max _ 0 _ (List.mem_map_of_mem _ hc)

/-- Claim C3: on a non-empty surviving channel list the graph assigns each
surviving channel the size `((owner_count / max_owner_count) + 2) * 8` in
exact rational arithmetic, where `max_owner_count` is attained on, and an
upper bound of, the owner counts of the surviving channels. -/
theorem channel_size_formula (pl : List Person) (cl : List Channel)
    (h : validChannels false cl ≠ []) :
    ∃ M : ℕ,
      (∃ c ∈ validChannels false cl, c.owners.length = M) ∧
      (∀ c ∈ validChannels false cl, c.owners.length ≤ M) ∧
      ∀ c ∈ validChannels false cl,
        (c.id, (((c.owners.length : ℚ) / (M : ℚ)) + 2) * 8) ∈
          (build_network_graph pl cl false).sizes := by
  refine ⟨maxOwners (validChannels false cl),
    (maxOwners_attained _ h).1, (maxOwners_attained _ h).2, ?_⟩
  intro c hc
  have hne : ¬ (validChannels false cl).isEmpty = true := by
    intro he
    rw [List.isEmpty_iff] at he
    exact h he
  unfold build_network_graph
  rw [if_neg hne]
  show _ ∈ channelSizes (validChannels false cl)
  exact List.mem_map_of_mem _ hc

/-- Witness for C3: one surviving channel with two owners gets size 24. -/
theorem channel_size_formula_witness :
    (validChannels false [chShared] ≠ []) ∧
    (∃ M : ℕ,
      (∃ c ∈ validChannels false [chShared], c.owners.length = M) ∧
      (∀ c ∈ validChannels false [chShared], c.owners.length ≤ M) ∧
      ∀ c ∈ validChannels false [chShared],
        (c.id, (((c.owners.length : ℚ) / (M : ℚ)) + 2) * 8) ∈
          (build_network_graph [] [chShared] false).sizes) :=
  ⟨by decide, channel_size_formula [] [chShared] (by decide)⟩

/-- Claim C4: when no channel passes the owner-count filter the result is
the empty graph with the no-data warning (no arithmetic is attempted), and
an empty input directory loads to empty person and channel lists. -/
theorem no_valid_channels_no_data (pl : List Person) (cl : List Channel)
    (color : String → String) :
    (cl.filter (fun c => 1 < c.owners.length) = [] →
      build_network_graph pl cl false = noDataGraph) ∧
    load_users_from_csv [] color = ([], []) := by
  constructor
  · intro h
    have hv : validChannels false cl = [] := h
    simp [build_network_graph, hv]
  · rfl

/-- Witness for C4: a single channel with one owner survives nothing. -/
theorem no_valid_channels_no_data_witness :
    ([chSolo].filter (fun c => 1 < c.owners.length) = []) ∧
    build_network_graph [] [chSolo] false = noDataGraph ∧
    load_users_from_csv [] sampleColor = ([], []) :=
  ⟨by decide, (no_valid_channels_no_data [] [chSolo] sampleColor).1 (by decide),
   (no_valid_channels_no_data [] [chSolo] sampleColor).2⟩

/-! ### No duplicate references -/

theorem nodup_fst_foldl_genStep (pname : String) (rows : List Row)
    (pch : List String) (reg : List Channel) (h : pch.Nodup) :
    ((rows.foldl (genStep pname) (pch, reg)).1).Nodup := by
  induction rows generalizing pch reg with
  | nil => exact h
  | cons r rs ih =>
      rw [List.foldl_cons]
      refine ih _ _ ?_
      show (if r.channel_id ∈ pch then pch else pch ++ [r.channel_id]).Nodup
      by_cases hm : r.channel_id ∈ pch
      · rw [if_pos hm]; exact h
      · rw [if_neg hm]; simp [List.nodup_append, h, hm]

theorem nodup_edges_edgeStep (v : List Channel) (p : Person)
    (st : List String × List (Sym2 String × String)) (i : String)
    (h : (st.2.map Prod.fst).Nodup) :
    (((edgeStep v p st i).2).map Prod.fst).Nodup := by
  unfold edgeStep
  by_cases hc : (v.any fun c => c.id == i) = true
  · rw [if_pos hc]
    exact nodup_map_fst_setEdge _ _ _ h
  · rw [if_neg hc]
    exact h

theorem nodup_edges_edgeFold (v : List Channel) (p : Person) (l : List String)
    (st : List String × List (Sym2 String × String))
    (h : (st.2.map Prod.fst).Nodup) :
    (((l.foldl (edgeStep v p) st).2).map Prod.fst).Nodup := by
  induction l generalizing st with
  | nil => exact h
  | cons i is ih =>
      rw [List.foldl_cons]
      exact ih _ (nodup_edges_edgeStep v p st i h)

theorem nodup_edges_personFold (v : List Channel) (pl : List Person)
    (st : List String × List (Sym2 String × String))
    (h : (st.2.map Prod.fst).Nodup) :
    (((pl.foldl (personStep v) st).2).map Prod.fst).Nodup := by
  induction pl generalizing st with
  | nil => exact h
  | cons p ps ih =>
      rw [List.foldl_cons]
      refine ih _ ?_
      show (((p.channels.foldl (edgeStep v p) (addNode st.1 p.name, st.2)).2).map Prod.fst).Nodup
      exact nodup_edges_edgeFold v p p.channels _ h

/-- Claim C9: after `generateChannels` a person's channels list holds each
channel at most once even on duplicate input rows, and the built graph
holds at most one entry per undirected (person, channel) edge. -/
theorem no_duplicate_channel_refs (pname : String) (rows : List Row)
    (reg : List Channel) (pl : List Person) (cl : List Channel) (d : Bool) :
    ((generateChannels pname rows reg).1).Nodup ∧
    (((build_network_graph pl cl d).edges.map Prod.fst).Nodup) := by
  constructor
  · exact nodup_fst_foldl_genStep pname rows [] reg List.nodup_nil
  · unfold build_network_graph
    by_cases he : (validChannels d cl).isEmpty = true
    · rw [if_pos he]
      simp [noDataGraph]
    · rw [if_neg he]
      show (((pl.foldl (personStep (validChannels d cl))
        (channelNodes (validChannels d cl), [])).2).map Prod.fst).Nodup
      exact nodup_edges_personFold _ pl _ (by simp)

/-! ### First record wins for channel attributes -/

/-- The presentation attributes (name, subscriber count, category, icon)
of the channel the id lookup resolves `i` to. -/
def attrsOf (reg : List Channel) (i : String) :
    Option (String × Option ℚ × String × String) :=
  (reg.find? (fun c => c.id == i)).map (fun c => (c.name, c.num_subs, c.category, c.icon))

/-- The attributes a fresh `Channel` takes from a row. -/
def attrsOfRow (r : Row) : String × Option ℚ × String × String :=
  (r.channel_title, toNumeric r.subscribers, headSplit r.category, r.thumbnail)

theorem attrsOf_addOwnerById (pname j : String) (reg : List Channel) (i : String) :
    attrsOf (addOwnerById pname j reg) i = attrsOf reg i := by
  induction reg with
  | nil => rfl
  | cons c cs ih =>
      by_cases hc : c.id = j
      · by_cases hi : c.id = i
        · have h1 : ((c.addOwner pname).id == i) = true := by simp [Channel.addOwner, hi]
          have h2 : (c.id == i) = true := by simp [hi]
          simp [addOwnerById, if_pos hc, attrsOf, List.find?, h1, h2, Channel.addOwner]
        · have h1 : ((c.addOwner pname).id == i) = false := by simp [Channel.addOwner, hi]
          have h2 : (c.id == i) = false := by simp [hi]
          simp [addOwnerById, if_pos hc, attrsOf, List.find?, h1, h2]
      · by_cases hi : c.id = i
        · have h2 : (c.id == i) = true := by simp [hi]
          simp [addOwnerById, if_neg hc, attrsOf, List.find?, h2]
        · have h2 : (c.id == i) = false := by simp [hi]
          have ih' := ih
          simp only [attrsOf] at ih'
          simp [addOwnerById, if_neg hc, attrsOf, List.find?, h2, ih']

theorem attrsOf_stepReg (pname : String) (reg : List Channel) (r : Row) (i : String) :
    attrsOf (stepReg pname reg r) i =
      (attrsOf reg i).or (if r.channel_id = i then some (attrsOfRow r) else none) := by
  unfold stepReg
  split
  · rename_i c hf
    rw [attrsOf_addOwnerById]
    cases ha : attrsOf reg i with
    | some a => simp [Option.or]
    | none =>
        by_cases hj : r.channel_id = i
        · exfalso
          rw [hj] at hf
          have : reg.find? (fun c => c.id == i) = none := by
            cases hg : reg.find? (fun c => c.id == i) with
            | none => rfl
            | some x => simp [attrsOf, hg] at ha
          rw [this] at hf
          exact Option.noConfusion hf
        · simp [Option.or, hj]
  · rename_i hf
    rw [attrsOf_addOwnerById]
    unfold attrsOf
    rw [List.find?_append]
    cases hg : reg.find? (fun c => c.id == i) with
    | some c => simp [Option.or, attrsOf, hg]
    | none =>
        by_cases hj : r.channel_id = i
        · have hb : ((channelOfRow r).id == i) = true := by simp [channelOfRow, hj]
          simp [Option.or, List.find?, hb, attrsOf, hg, hj, channelOfRow, attrsOfRow]
        · have hb : ((channelOfRow r).id == i) = false := by simp [channelOfRow, hj]
          simp [Option.or, List.find?, hb, attrsOf, hg, hj]

theorem attrsOf_foldl_stepReg (pname : String) (rows : List Row) (reg : List Channel)
    (i : String) :
    attrsOf (rows.foldl (stepReg pname) reg) i =
      (attrsOf reg i).or
        ((rows.find? (fun r => r.channel_id == i)).map attrsOfRow) := by
  induction rows generalizing reg with
  | nil =>
      rw [List.foldl_nil, List.find?_nil]
      cases h : attrsOf reg i <;> simp [Option.or, h]
  | cons r rs ih =>
      rw [List.foldl_cons, ih, attrsOf_stepReg]
      by_cases hj : r.channel_id = i
      · have hb : (r.channel_id == i) = true := by simp [hj]
        have hfind : List.find? (fun r => r.channel_id == i) (r :: rs) = some r := by
          simp [List.find?, hb]
        rw [hfind, if_pos hj]
        cases h : attrsOf reg i <;> simp [Option.or, h]
      · have hb : (r.channel_id == i) = false := by simp [hj]
        have hfind : List.find? (fun r => r.channel_id == i) (r :: rs) =
            List.find? (fun r => r.channel_id == i) rs := by
          simp [List.find?, hb]
        rw [hfind, if_neg hj]
        cases h : attrsOf reg i <;> simp [Option.or, h]

theorem attrsOf_regFiles (files : List (String × List Row)) (reg : List Channel)
    (i : String) :
    attrsOf (regFiles files reg) i =
      (attrsOf reg i).or
        (((files.flatMap Prod.snd).find? (fun r => r.channel_id == i)).map attrsOfRow) := by
  induction files generalizing reg with
  | nil =>
      show attrsOf reg i = _
      rw [List.flatMap_nil, List.find?_nil]
      cases h : attrsOf reg i <;> simp [Option.or, h]
  | cons f fs ih =>
      show attrsOf (regFiles fs (f.2.foldl (stepReg f.1) reg)) i = _
      rw [ih, attrsOf_foldl_stepReg]
      rw [List.flatMap_cons, List.find?_append]
      cases attrsOf reg i <;>
        cases hf2 : f.2.find? (fun r => r.channel_id == i) <;>
          simp [Option.or, hf2]

/-- Claim C10: when several records share one channel id, the registered
channel's attributes (title, subscriber count, category, icon) are those of
the first record in processing order; later records' values are ignored. -/
theorem first_record_wins (files : List (String × List Row))
    (color : String → String) (i : String) (r₀ : Row)
    (h : (files.flatMap Prod.snd).find? (fun r => r.channel_id == i) = some r₀) :
    attrsOf ((load_users_from_csv files color).2) i = some (attrsOfRow r₀) := by
  rw [snd_load_users_from_csv, attrsOf_regFiles, h]
  simp [attrsOf, Option.or]

/-- A second row bearing `ch1` with different title and attribute values. -/
def rowAdup : Row :=
  { channel_id := "ch1", channel_title := "Other Title", subscribers := "5",
    thumbnail := "http://other", category := "Alt" }

def filesDup : List (String × List Row) := [("alice", [rowA]), ("bob", [rowAdup])]

/-- Witness for C10: the second user's conflicting row is ignored. -/
theorem first_record_wins_witness :
    ((filesDup.flatMap Prod.snd).find? (fun r => r.channel_id == "ch1") = some rowA) ∧
    attrsOf ((load_users_from_csv filesDup sampleColor).2) "ch1" = some (attrsOfRow rowA) :=
  ⟨by decide, first_record_wins filesDup sampleColor "ch1" rowA (by decide)⟩

/-! ### Structural determinism of the pipeline -/

/-- The color-free part of a `Person`: name and channel references. -/
def personShape (p : Person) : String × List String := (p.name, p.channels)

theorem load_foldl_color_shape (c₁ c₂ : String → String)
    (files : List (String × List Row)) (pl₁ pl₂ : List Person) (reg : List Channel)
    (hp : pl₁.map personShape = pl₂.map personShape) :
    ((files.foldl (loadStep c₁) (pl₁, reg)).1).map personShape =
      ((files.foldl (loadStep c₂) (pl₂, reg)).1).map personShape := by
  induction files generalizing pl₁ pl₂ reg with
  | nil => exact hp
  | cons f fs ih =>
      rw [List.foldl_cons, List.foldl_cons]
      refine ih _ _ _ ?_
      show ((pl₁ ++ [Person.mk f.1 (c₁ f.1) (generateChannels f.1 f.2 reg).1]).map personShape) =
        ((pl₂ ++ [Person.mk f.1 (c₂ f.1) (generateChannels f.1 f.2 reg).1]).map personShape)
      rw [List.map_append, List.map_append, hp]
      rfl

theorem load_color_shape (files : List (String × List Row)) (c₁ c₂ : String → String) :
    ((load_users_from_csv files c₁).1).map personShape =
      ((load_users_from_csv files c₂).1).map personShape :=
  load_foldl_color_shape c₁ c₂ files [] [] [] rfl

theorem edgeFold_shape (v : List Channel) (p₁ p₂ : Person)
    (hname : p₁.name = p₂.name) (l : List String)
    (st₁ st₂ : List String × List (Sym2 String × String))
    (h1 : st₁.1 = st₂.1) (h2 : st₁.2.map Prod.fst = st₂.2.map Prod.fst) :
    ((l.foldl (edgeStep v p₁) st₁).1 = (l.foldl (edgeStep v p₂) st₂).1) ∧
    ((l.foldl (edgeStep v p₁) st₁).2.map Prod.fst =
      (l.foldl (edgeStep v p₂) st₂).2.map Prod.fst) := by
  induction l generalizing st₁ st₂ with
  | nil => exact ⟨h1, h2⟩
  | cons i is ih =>
      rw [List.foldl_cons, List.foldl_cons]
      refine ih _ _ ?_ ?_
      · unfold edgeStep
        by_cases hc : (v.any fun c => c.id == i) = true
        · rw [if_pos hc, if_pos hc]
          show addNode (addNode st₁.1 p₁.name) i = addNode (addNode st₂.1 p₂.name) i
          rw [h1, hname]
        · rw [if_neg hc, if_neg hc]
          exact h1
      · unfold edgeStep
        by_cases hc : (v.any fun c => c.id == i) = true
        · rw [if_pos hc, if_pos hc]
          show (setEdge (Sym2.mk (p₁.name, i)) p₁.color st₁.2).map Prod.fst =
            (setEdge (Sym2.mk (p₂.name, i)) p₂.color st₂.2).map Prod.fst
          rw [map_fst_setEdge, map_fst_setEdge, h2, hname]
        · rw [if_neg hc, if_neg hc]
          exact h2

theorem personFold_shape (v : List Channel) (pl₁ pl₂ : List Person)
    (hp : pl₁.map personShape = pl₂.map personShape)
    (st₁ st₂ : List String × List (Sym2 String × String))
    (h1 : st₁.1 = st₂.1) (h2 : st₁.2.map Prod.fst = st₂.2.map Prod.fst) :
    ((pl₁.foldl (personStep v) st₁).1 = (pl₂.foldl (personStep v) st₂).1) ∧
    ((pl₁.foldl (personStep v) st₁).2.map Prod.fst =
      (pl₂.foldl (personStep v) st₂).2.map Prod.fst) := by
  induction pl₁ generalizing pl₂ st₁ st₂ with
  | nil =>
      cases pl₂ with
      | nil => exact ⟨h1, h2⟩
      | cons q qs => simp at hp
  | cons p ps ih =>
      cases pl₂ with
      | nil => simp at hp
      | cons q qs =>
          have hp' : personShape p :: ps.map personShape =
              personShape q :: qs.map personShape := hp
          injection hp' with hpq htl
          have hname : p.name = q.name := congrArg Prod.fst hpq
          have hch : p.channels = q.channels := congrArg Prod.snd hpq
          rw [List.foldl_cons, List.foldl_cons]
          have hstep := edgeFold_shape v p q hname p.channels
            (addNode st₁.1 p.name, st₁.2) (addNode st₂.1 q.name, st₂.2)
            (by show addNode st₁.1 p.name = addNode st₂.1 q.name; rw [h1, hname])
            h2
          have hq : q.channels.foldl (edgeStep v q) (addNode st₂.1 q.name, st₂.2) =
              p.channels.foldl (edgeStep v q) (addNode st₂.1 q.name, st₂.2) := by
            rw [hch]
          refine ih qs htl (personStep v st₁ p) (personStep v st₂ q) ?_ ?_
          · show (p.channels.foldl (edgeStep v p) (addNode st₁.1 p.name, st₁.2)).1 =
              (q.channels.foldl (edgeStep v q) (addNode st₂.1 q.name, st₂.2)).1
            rw [hq]
            exact hstep.1
          · show ((p.channels.foldl (edgeStep v p) (addNode st₁.1 p.name, st₁.2)).2).map Prod.fst =
              ((q.channels.foldl (edgeStep v q) (addNode st₂.1 q.name, st₂.2)).2).map Prod.fst
            rw [hq]
            exact hstep.2

theorem buildValid_shape (pl₁ pl₂ : List Person) (v : List Channel)
    (hp : pl₁.map personShape = pl₂.map personShape) :
    ((buildValid pl₁ v).nodes = (buildValid pl₂ v).nodes) ∧
    ((buildValid pl₁ v).edges.map Prod.fst = (buildValid pl₂ v).edges.map Prod.fst) := by
  exact personFold_shape v pl₁ pl₂ hp (channelNodes v, []) (channelNodes v, []) rfl rfl

/-- Claim C7: running the load-and-build pipeline twice on the same input
files gives structurally identical graphs, whatever colors the random
color generator hands out on each run: the node lists, the undirected edge
sets, the size writes, the warning flag, and hence the node and edge
counts all coincide. -/
theorem pipeline_structure_deterministic (files : List (String × List Row))
    (c₁ c₂ : String → String) :
    ((build_network_graph (load_users_from_csv files c₁).1
        (load_users_from_csv files c₁).2 false).nodes =
      (build_network_graph (load_users_from_csv files c₂).1
        (load_users_from_csv files c₂).2 false).nodes) ∧
    ((build_network_graph (load_users_from_csv files c₁).1
        (load_users_from_csv files c₁).2 false).edges.map Prod.fst =
      (build_network_graph (load_users_from_csv files c₂).1
        (load_users_from_csv files c₂).2 false).edges.map Prod.fst) ∧
    ((build_network_graph (load_users_from_csv files c₁).1
        (load_users_from_csv files c₁).2 false).sizes =
      (build_network_graph (load_users_from_csv files c₂).1
        (load_users_from_csv files c₂).2 false).sizes) ∧
    ((build_network_graph (load_users_from_csv files c₁).1
        (load_users_from_csv files c₁).2 false).warning =
      (build_network_graph (load_users_from_csv files c₂).1
        (load_users_from_csv files c₂).2 false).warning) ∧
    ((build_network_graph (load_users_from_csv files c₁).1
        (load_users_from_csv files c₁).2 false).nodes.length =
      (build_network_graph (load_users_from_csv files c₂).1
        (load_users_from_csv files c₂).2 false).nodes.length) ∧
    ((build_network_graph (load_users_from_csv files c₁).1
        (load_users_from_csv files c₁).2 false).edges.length =
      (build_network_graph (load_users_from_csv files c₂).1
        (load_users_from_csv files c₂).2 false).edges.length) := by
  have hreg : (load_users_from_csv files c₁).2 = (load_users_from_csv files c₂).2 := by
    rw [snd_load_users_from_csv, snd_load_users_from_csv]
  have hp := load_color_shape files c₁ c₂
  rw [← hreg]
  simp only [build_network_graph]
  by_cases he : (validChannels false (load_users_from_csv files c₁).2).isEmpty = true
  · rw [if_pos he, if_pos he]
    exact ⟨rfl, rfl, rfl, rfl, rfl, rfl⟩
  · rw [if_neg he, if_neg he]
    have hs := buildValid_shape (load_users_from_csv files c₁).1
      (load_users_from_csv files c₂).1
      (validChannels false (load_users_from_csv files c₁).2) hp
    refine ⟨hs.1, hs.2, rfl, rfl, by rw [hs.1], ?_⟩
    have hlen : ((buildValid (load_users_from_csv files c₁).1
        (validChannels false (load_users_from_csv files c₁).2)).edges.map Prod.fst).length =
      ((buildValid (load_users_from_csv files c₂).1
        (validChannels false (load_users_from_csv files c₁).2)).edges.map Prod.fst).length := by
      rw [hs.2]
    simpa using hlen

/-! ### Loading completes and coerces malformed subscriber counts -/

theorem fst_foldl_loadStep_names (color : String → String)
    (files : List (String × List Row)) (pl : List Person) (reg : List Channel) :
    ((files.foldl (loadStep color) (pl, reg)).1).map Person.name =
      pl.map Person.name ++ files.map Prod.fst := by
  induction files generalizing pl reg with
  | nil => simp
  | cons f fs ih =>
      rw [List.foldl_cons]
      have hi := ih (pl ++ [Person.mk f.1 (color f.1) (generateChannels f.1 f.2 reg).1])
        (generateChannels f.1 f.2 reg).2
      show ((fs.foldl (loadStep color)
        (pl ++ [Person.mk f.1 (color f.1) (generateChannels f.1 f.2 reg).1],
          (generateChannels f.1 f.2 reg).2)).1).map Person.name = _
      rw [hi]
      simp

theorem mem_addOwnerById_origin (pname i : String) (l : List Channel) (c : Channel)
    (hc : c ∈ addOwnerById pname i l) :
    ∃ c₀ ∈ l, c.id = c₀.id ∧ c.num_subs = c₀.num_subs := by
  induction l with
  | nil => simp [addOwnerById] at hc
  | cons d ds ih =>
      by_cases hd : d.id = i
      · simp only [addOwnerById, if_pos hd] at hc
        rcases List.mem_cons.mp hc with rfl | hmem
        · exact ⟨d, List.mem_cons_self d ds, rfl, rfl⟩
        · exact ⟨c, List.mem_cons_of_mem d hmem, rfl, rfl⟩
      · simp only [addOwnerById, if_neg hd] at hc
        rcases List.mem_cons.mp hc with rfl | hmem
        · exact ⟨c, List.mem_cons_self c ds, rfl, rfl⟩
        · rcases ih hmem with ⟨c₀, h₀, hid, hs⟩
          exact ⟨c₀, List.mem_cons_of_mem d h₀, hid, hs⟩

theorem mem_stepReg_origin (pname : String) (l : List Channel) (r : Row) (c : Channel)
    (hc : c ∈ stepReg pname l r) :
    (∃ c₀ ∈ l, c.id = c₀.id ∧ c.num_subs = c₀.num_subs) ∨
    (c.id = r.channel_id ∧ c.num_subs = toNumeric r.subscribers) := by
  unfold stepReg at hc
  split at hc
  · rcases mem_addOwnerById_origin _ _ _ _ hc with ⟨c₀, h₀, hid, hs⟩
    exact Or.inl ⟨c₀, h₀, hid, hs⟩
  · rcases mem_addOwnerById_origin _ _ _ _ hc with ⟨c₀, h₀, hid, hs⟩
    rcases List.mem_append.mp h₀ with hl | hr
    · exact Or.inl ⟨c₀, hl, hid, hs⟩
    · have hcr : c₀ = channelOfRow r := by simpa using hr
      subst hcr
      exact Or.inr ⟨hid, hs⟩

theorem mem_foldl_stepReg_origin (pname : String) (rows : List Row)
    (l : List Channel) (c : Channel) (hc : c ∈ rows.foldl (stepReg pname) l) :
    (∃ c₀ ∈ l, c.id = c₀.id ∧ c.num_subs = c₀.num_subs) ∨
    (∃ r ∈ rows, c.id = r.channel_id ∧ c.num_subs = toNumeric r.subscribers) := by
  induction rows generalizing l with
  | nil => exact Or.inl ⟨c, hc, rfl, rfl⟩
  | cons r rs ih =>
      rw [List.foldl_cons] at hc
      rcases ih _ hc with ⟨c₀, h₀, hid, hs⟩ | ⟨r', hr', hid, hs⟩
      · rcases mem_stepReg_origin pname l r c₀ h₀ with ⟨c₁, h₁, hid₁, hs₁⟩ | ⟨hid₁, hs₁⟩
        · exact Or.inl ⟨c₁, h₁, hid.trans hid₁, hs.trans hs₁⟩
        · exact Or.inr ⟨r, List.mem_cons_self r rs, hid.trans hid₁, hs.trans hs₁⟩
      · exact Or.inr ⟨r', List.mem_cons_of_mem r hr', hid, hs⟩

theorem mem_regFiles_origin (files : List (String × List Row)) (l : List Channel)
    (c : Channel) (hc : c ∈ regFiles files l) :
    (∃ c₀ ∈ l, c.id = c₀.id ∧ c.num_subs = c₀.num_subs) ∨
    (∃ f ∈ files, ∃ r ∈ f.2, c.id = r.channel_id ∧ c.num_subs = toNumeric r.subscribers) := by
  induction files generalizing l with
  | nil => exact Or.inl ⟨c, hc, rfl, rfl⟩
  | cons f fs ih =>
      have hc' : c ∈ regFiles fs (f.2.foldl (stepReg f.1) l) := hc
      rcases ih _ hc' with ⟨c₀, h₀, hid, hs⟩ | ⟨f', hf', r', hr', hid, hs⟩
      · rcases mem_foldl_stepReg_origin f.1 f.2 l c₀ h₀ with
          ⟨c₁, h₁, hid₁, hs₁⟩ | ⟨r', hr', hid₁, hs₁⟩
        · exact Or.inl ⟨c₁, h₁, hid.trans hid₁, hs.trans hs₁⟩
        · exact Or.inr ⟨f, List.mem_cons_self f fs, r', hr',
            hid.trans hid₁, hs.trans hs₁⟩
      · exact Or.inr ⟨f', List.mem_cons_of_mem f hf', r', hr', hid, hs⟩

/-- Claim C8: loading never fails on a malformed subscriber count: one
`Person` is produced per input file whatever the subscriber fields hold,
the `"Hidden"` sentinel coerces to the explicit missing value `none`, and
every registered channel's `num_subs` is the coercion `toNumeric` of some
input row's raw subscriber field. -/
theorem load_coerces_malformed (files : List (String × List Row))
    (color : String → String) :
    ((load_users_from_csv files color).1).map Person.name = files.map Prod.fst ∧
    toNumeric "Hidden" = none ∧
    ∀ c ∈ (load_users_from_csv files color).2,
      ∃ f ∈ files, ∃ r ∈ f.2,
        c.id = r.channel_id ∧ c.num_subs = toNumeric r.subscribers := by
  refine ⟨?_, by decide, ?_⟩
  · have h := fst_foldl_loadStep_names color files [] []
    simpa using h
  · intro c hc
    rw [snd_load_users_from_csv] at hc
    rcases mem_regFiles_origin files [] c hc with ⟨c₀, h₀, _, _⟩ | h
    · simp at h₀
    · exact h

/-- Witness for C8: the channel loaded from the row with subscriber count
`"Hidden"` carries the missing value and traces back to its row. -/
theorem load_coerces_malformed_witness :
    (chSolo ∈ (load_users_from_csv sampleFiles sampleColor).2) ∧
    ∃ f ∈ sampleFiles, ∃ r ∈ f.2,
      chSolo.id = r.channel_id ∧ chSolo.num_subs = toNumeric r.subscribers :=
  ⟨by decide, (load_coerces_malformed sampleFiles sampleColor).2.2 chSolo (by decide)⟩

end YtNet
